import Mathlib

/-!
Shallow embedding of the mark-resolution subsystem of `src/rust/automerge/src/marks.rs`
(the `Mark`, `MarkData`, `MarkStateMachine` and `ExpandMark` types), together with
proofs about the begin/end resolution algorithm.

Rust `Vec` mutation is modelled by explicit state passing: each engine method returns
the optional delta together with the updated machine.  `Vec::insert`/`Vec::remove`
become `List.take`/`List.drop` splicing, and the in-place update of the *below* entry
in `mark_or_unmark_end` becomes `List.set` at the index of the last name-matching
entry of the prefix.  `slice::binary_search_by` is embedded as a fuel-indexed
structural recursion (`bsearchFuel`) so that all definitions compute by kernel
reduction; the fuel `right - left` is always sufficient, which the lemmas below make
precise.
-/

/-- Modelled from the spec: the scalar payload values of `crate::value::ScalarValue`
(the file is not part of this excerpt).  The spec only requires a distinguished
null sentinel ("a payload whose value is null represents absence of a mark") plus
ordinary scalar payloads, compared for equality. -/
inductive ScalarValue where
  | Null : ScalarValue
  | Boolean : Bool → ScalarValue
  | Str : String → ScalarValue
  | Int : Int → ScalarValue
deriving DecidableEq, Repr

/-- Test for the null sentinel, mirroring `ScalarValue::is_null`. -/
def ScalarValue.is_null : ScalarValue → Bool
  | ScalarValue.Null => true
  | _ => false

/-- Modelled from the spec: operation identifiers of `crate::types::OpId` (not part
of this excerpt): "a monotonically increasing per-actor counter, then break ties by
actor identity". -/
structure OpId where
  counter : Nat
  actor : Nat
deriving DecidableEq, Repr

/-- Modelled from the spec: `OpId::prev` resolves an end operation's paired begin
identifier, "a deterministic predecessor identifier (`pairedBegin(id)`)": same
actor, previous counter. -/
def OpId.prev (id : OpId) : OpId :=
  { counter := id.counter - 1, actor := id.actor }

/-- Modelled from the spec: the canonical total order `OpSetMetadata::lamport_cmp`
(not part of this excerpt): "compare a monotonically increasing per-actor counter,
then break ties by actor identity". -/
def lamport_cmp (a b : OpId) : Ordering :=
  if a.counter < b.counter then Ordering.lt
  else if b.counter < a.counter then Ordering.gt
  else if a.actor < b.actor then Ordering.lt
  else if b.actor < a.actor then Ordering.gt
  else Ordering.eq

/-- The strict form of the canonical total order. -/
def lamportLT (a b : OpId) : Prop := lamport_cmp a b = Ordering.lt

instance : DecidablePred fun p : OpId × OpId => lamportLT p.1 p.2 := by
  intro p; unfold lamportLT; infer_instance

instance (a b : OpId) : Decidable (lamportLT a b) := by
  unfold lamportLT; infer_instance

/-- The payload of a mark: `MarkData` from `marks.rs`. -/
structure MarkData where
  name : String
  value : ScalarValue
deriving DecidableEq, Repr

/-- A mark over a half-open range: `Mark` from `marks.rs`.  The Rust field `end` is
a Lean keyword, so it is called `endPos` here; `Cow` borrowed/owned payloads
coincide in a value model. -/
structure Mark where
  start : Nat
  endPos : Nat
  data : MarkData
deriving DecidableEq, Repr

/-- Constructor `Mark::new`. -/
def Mark.new (name : String) (value : ScalarValue) (start endPos : Nat) : Mark :=
  { start := start, endPos := endPos, data := { name := name, value := value } }

/-- Accessor `Mark::name`. -/
def Mark.name (m : Mark) : String := m.data.name

/-- Accessor `Mark::value`. -/
def Mark.value (m : Mark) : ScalarValue := m.data.value

/-- Predicate `Mark::is_null`. -/
def Mark.is_null (m : Mark) : Bool := m.data.value.is_null

/-- Constructor `Mark::from_data`. -/
def Mark.from_data (start endPos : Nat) (data : MarkData) : Mark :=
  { start := start, endPos := endPos, data := data }

/-- The engine state: `MarkStateMachine` from `marks.rs`, a vector of
`(OpId, Mark)` pairs kept sorted by `lamport_cmp` on the identifier. -/
structure MarkStateMachine where
  state : List (OpId × Mark)
deriving DecidableEq, Repr

/-- Fuel-indexed embedding of `slice::binary_search_by` on the index range
`[left, right)`: `f i` plays the role of the comparator applied to the element at
index `i`.  With fuel at least `right - left` this computes exactly the Rust
binary search (see `bsearchFuel_ok` and `bsearchFuel_error`). -/
def bsearchFuel (f : Nat → Ordering) : Nat → Nat → Nat → Except Nat Nat
  | 0, left, _ => Except.error left
  | fuel + 1, left, right =>
    if left < right then
      match f (left + (right - left) / 2) with
      | Ordering.lt => bsearchFuel f fuel (left + (right - left) / 2 + 1) right
      | Ordering.gt => bsearchFuel f fuel left (left + (right - left) / 2)
      | Ordering.eq => Except.ok (left + (right - left) / 2)
    else Except.error left

/-- `slice::binary_search_by` over `len` elements compared by `f`. -/
def binary_search_by (f : Nat → Ordering) (len : Nat) : Except Nat Nat :=
  bsearchFuel f len 0 len

/-- The comparator probe used by `MarkStateMachine::find`: compare the identifier
of the entry at index `i` against `target` under the canonical order.  Out-of-range
indices (never probed by the search) compare as greater. -/
def keyCmpAt (state : List (OpId × Mark)) (target : OpId) (i : Nat) : Ordering :=
  match state[i]? with
  | some p => lamport_cmp p.1 target
  | none => Ordering.gt

/-- Method `MarkStateMachine::find`: binary search of the sorted state for
`target` under `lamport_cmp` (the `doc` argument only supplies the comparator,
which is global in this embedding).  `Except.ok i` means found at `i`,
`Except.error j` means absent with insertion index `j`. -/
def MarkStateMachine.find (st : MarkStateMachine) (target : OpId) : Except Nat Nat :=
  binary_search_by (keyCmpAt st.state target) st.state.length

/-- Helper `MarkStateMachine::mark_above`: the first entry at or after `index`
sharing the candidate's name. -/
def mark_above (state : List (OpId × Mark)) (index : Nat) (mark : Mark) : Option Mark :=
  ((state.drop index).find? (fun p => p.2.data.name == mark.data.name)).map (fun p => p.2)

/-- Helper `MarkStateMachine::mark_below`: the last entry before `index` sharing
the candidate's name. -/
def mark_below (state : List (OpId × Mark)) (index : Nat) (mark : Mark) : Option Mark :=
  (((state.take index).filter (fun p => p.2.data.name == mark.data.name)).getLast?).map (fun p => p.2)

/-- Index of the last entry of `l` satisfying `p`, used to model the in-place
mutation of the *below* entry (`iter_mut().filter(..).last()`) in
`mark_or_unmark_end`. -/
def lastIdxWhere (p : α → Bool) : List α → Option Nat
  | [] => none
  | a :: l =>
    match lastIdxWhere p l with
    | some i => some (i + 1)
    | none => if p a then some 0 else none

/-- Method `MarkStateMachine::mark_or_unmark_begin`.  Returns the optional delta
and the updated machine (Rust mutates `self`). -/
def MarkStateMachine.mark_or_unmark_begin (st : MarkStateMachine) (id : OpId) (pos : Nat)
    (data : MarkData) : Option Mark × MarkStateMachine :=
  match st.find id with
  | Except.ok _ => (none, st)
  | Except.error index =>
    let mark0 := Mark.from_data pos pos data
    let (result, mark) :=
      match mark_above st.state index mark0 with
      | some above =>
        if above.value = mark0.value then (none, { mark0 with start := above.start })
        else (none, mark0)
      | none =>
        match mark_below st.state index mark0 with
        | some below =>
          if below.value = mark0.value then (none, { mark0 with start := below.start })
          else (some { below with endPos := pos }, mark0)
        | none => (none, mark0)
    (result, ⟨(st.state.take index) ++ (id, mark) :: (st.state.drop index)⟩)

/-- Method `MarkStateMachine::mark_begin`: `mark_or_unmark_begin` with null
deltas suppressed. -/
def MarkStateMachine.mark_begin (st : MarkStateMachine) (id : OpId) (pos : Nat)
    (data : MarkData) : Option Mark × MarkStateMachine :=
  let (r, st') := st.mark_or_unmark_begin id pos data
  (r.bind (fun m => if m.is_null then none else some m), st')

/-- Method `MarkStateMachine::mark_or_unmark_end`.  The entry of the paired begin
`id.prev` is removed, its `end` is finalized at `pos`, and if it was visible the
closed span is emitted, extending a differently-valued *below* entry to start at
`pos`.  The two `none` fallbacks for out-of-range indices are dead code: `find`
only succeeds at valid indices and `lastIdxWhere` only returns valid indices. -/
def MarkStateMachine.mark_or_unmark_end (st : MarkStateMachine) (id : OpId) (pos : Nat) :
    Option Mark × MarkStateMachine :=
  match st.find id.prev with
  | Except.error _ => (none, st)
  | Except.ok index =>
    match st.state[index]? with
    | none => (none, st)
    | some entry =>
      let state1 := (st.state.take index) ++ (st.state.drop (index + 1))
      let mark : Mark := { entry.2 with endPos := pos }
      if (mark_above state1 index mark).isSome then (none, ⟨state1⟩)
      else
        match lastIdxWhere (fun p => p.2.data.name == mark.data.name) (state1.take index) with
        | none => (some mark, ⟨state1⟩)
        | some bi =>
          match state1[bi]? with
          | none => (none, ⟨state1⟩)
          | some below =>
            if below.2.value = mark.value then (none, ⟨state1⟩)
            else (some mark, ⟨state1.set bi (below.1, { below.2 with start := pos })⟩)

/-- Method `MarkStateMachine::mark_end`: `mark_or_unmark_end` with null deltas
suppressed. -/
def MarkStateMachine.mark_end (st : MarkStateMachine) (id : OpId) (pos : Nat) :
    Option Mark × MarkStateMachine :=
  let (r, st') := st.mark_or_unmark_end id pos
  (r.bind (fun m => if m.is_null then none else some m), st')

/-- Enum `ExpandMark` from `marks.rs`. -/
inductive ExpandMark where
  | Before : ExpandMark
  | After : ExpandMark
  | Both : ExpandMark
  | None : ExpandMark
deriving DecidableEq, Repr

/-- Impl `Default for ExpandMark`. -/
instance : Inhabited ExpandMark := ⟨ExpandMark.After⟩

/-- Constructor `ExpandMark::from`. -/
def ExpandMark.from : Bool → Bool → ExpandMark
  | true, true => ExpandMark.Both
  | false, true => ExpandMark.After
  | true, false => ExpandMark.Before
  | false, false => ExpandMark.None

/-- Predicate `ExpandMark::before`. -/
def ExpandMark.before : ExpandMark → Bool
  | ExpandMark.Before => true
  | ExpandMark.Both => true
  | _ => false

/-- Predicate `ExpandMark::after`. -/
def ExpandMark.after : ExpandMark → Bool
  | ExpandMark.After => true
  | ExpandMark.Both => true
  | _ => false

/-- A begin or end mark operation as fed to the machine by the replay layer. -/
inductive MarkOp where
  | beginOp : OpId → Nat → MarkData → MarkOp
  | endOp : OpId → Nat → MarkOp
deriving DecidableEq, Repr

/-- The identifier of an operation. -/
def MarkOp.opId : MarkOp → OpId
  | MarkOp.beginOp id _ _ => id
  | MarkOp.endOp id _ => id

/-- Apply one operation to a machine, returning the optional delta. -/
def applyOp (st : MarkStateMachine) : MarkOp → Option Mark × MarkStateMachine
  | MarkOp.beginOp id pos data => st.mark_begin id pos data
  | MarkOp.endOp id pos => st.mark_end id pos

/-- Run a sequence of operations from a given machine state. -/
def runOps (st : MarkStateMachine) (ops : List MarkOp) : MarkStateMachine :=
  ops.foldl (fun s op => (applyOp s op).2) st

/-- Run a sequence of operations, also collecting the emitted visible deltas. -/
def runEmit (st : MarkStateMachine) (ops : List MarkOp) : MarkStateMachine × List Mark :=
  ops.foldl (fun s op =>
    let (r, st') := applyOp s.1 op
    (st', s.2 ++ r.toList)) (st, [])

/-- Causal consistency of a delivery order: every end operation is preceded by its
paired begin (the spec's "an end is never processed before its paired begin"). -/
def causallyConsistentFrom (seen : List OpId) : List MarkOp → Bool
  | [] => true
  | MarkOp.beginOp id _ _ :: rest => causallyConsistentFrom (id :: seen) rest
  | MarkOp.endOp id _ :: rest => seen.contains id.prev && causallyConsistentFrom seen rest

/-- Causal consistency of a delivery order starting from scratch. -/
def causallyConsistent (ops : List MarkOp) : Bool :=
  causallyConsistentFrom [] ops

/-- The state invariant: entries are strictly sorted by the canonical total order
on their identifiers. -/
def SortedSt (st : MarkStateMachine) : Prop :=
  List.Sorted lamportLT (st.state.map Prod.fst)

instance (st : MarkStateMachine) : Decidable (SortedSt st) := by
  unfold SortedSt List.Sorted; infer_instance


/-- Payload `{name: "bold", value: true}` used by the spec scenarios. -/
def boldTrue : MarkData := { name := "bold", value := ScalarValue.Boolean true }

/-- Payload `{name: "bold", value: false}` used by the shadowing scenario. -/
def boldFalse : MarkData := { name := "bold", value := ScalarValue.Boolean false }

/-- Payload with the null unmark sentinel. -/
def boldNull : MarkData := { name := "bold", value := ScalarValue.Null }

/-- The empty engine (`MarkStateMachine::default`). -/
def emptyMachine : MarkStateMachine := ⟨[]⟩

/-- Scenario A intermediate state: after `begin(id=1, pos=2, bold:true)`. -/
def stA1 : MarkStateMachine := (emptyMachine.mark_begin ⟨1, 0⟩ 2 boldTrue).2

/-- Shared intermediate state: after `begin(id=1, pos=0, bold:true)`. -/
def stB1 : MarkStateMachine := (emptyMachine.mark_begin ⟨1, 0⟩ 0 boldTrue).2

/-- State holding an open null (unmark) span: after `begin(id=1, pos=0, bold:null)`. -/
def stNull1 : MarkStateMachine := (emptyMachine.mark_begin ⟨1, 0⟩ 0 boldNull).2

/-- Two concurrent begins delivered in canonical order. -/
def seqX : List MarkOp := [MarkOp.beginOp ⟨1, 0⟩ 0 boldTrue, MarkOp.beginOp ⟨3, 0⟩ 2 boldTrue]

/-- The same two begins delivered in the opposite order. -/
def seqY : List MarkOp := [MarkOp.beginOp ⟨3, 0⟩ 2 boldTrue, MarkOp.beginOp ⟨1, 0⟩ 0 boldTrue]

/-- Two overlapping spans, begins and ends, in one causally consistent order. -/
def seqX4 : List MarkOp :=
  [MarkOp.beginOp ⟨1, 0⟩ 0 boldTrue, MarkOp.beginOp ⟨3, 0⟩ 2 boldTrue,
   MarkOp.endOp ⟨2, 0⟩ 5, MarkOp.endOp ⟨4, 0⟩ 7]

/-- The same four operations in another causally consistent order. -/
def seqY4 : List MarkOp :=
  [MarkOp.beginOp ⟨3, 0⟩ 2 boldTrue, MarkOp.beginOp ⟨1, 0⟩ 0 boldTrue,
   MarkOp.endOp ⟨4, 0⟩ 7, MarkOp.endOp ⟨2, 0⟩ 5]

/-- A simple span delivered in the canonical total order. -/
def seqSorted : List MarkOp := [MarkOp.beginOp ⟨1, 0⟩ 2 boldTrue, MarkOp.endOp ⟨2, 0⟩ 6]

/-- Payload `{name: "italic", value: true}` for the name-isolation scenario. -/
def italicTrue : MarkData := { name := "italic", value := ScalarValue.Boolean true }

/-- State holding an open `bold` span (id 1) and an open `italic` span (id 5). -/
def stItalic : MarkStateMachine := (stB1.mark_begin ⟨5, 0⟩ 1 italicTrue).2

deriving instance DecidableEq for Except

/-! Basic facts about the canonical order. -/

theorem lamport_cmp_eq_iff (a b : OpId) : lamport_cmp a b = Ordering.eq ↔ a = b := by
  obtain ⟨ac, aa⟩ := a; obtain ⟨bc, ba⟩ := b
  simp only [lamport_cmp, OpId.mk.injEq]
  split_ifs <;> simp_all <;> omega

theorem lamport_cmp_gt_iff (a b : OpId) : lamport_cmp a b = Ordering.gt ↔ lamportLT b a := by
  obtain ⟨ac, aa⟩ := a; obtain ⟨bc, ba⟩ := b
  simp only [lamport_cmp, lamportLT]
  split_ifs <;> simp_all <;> omega

theorem lamportLT_irrefl (a : OpId) : ¬ lamportLT a a := by
  obtain ⟨ac, aa⟩ := a
  simp [lamportLT, lamport_cmp]

theorem lamportLT_trans {a b c : OpId} (h1 : lamportLT a b) (h2 : lamportLT b c) :
    lamportLT a c := by
  obtain ⟨ac, aa⟩ := a; obtain ⟨bc, ba⟩ := b; obtain ⟨cc, ca⟩ := c
  simp only [lamportLT, lamport_cmp] at *
  split_ifs at * <;> simp_all <;> omega

theorem lamportLT_asymm {a b : OpId} (h1 : lamportLT a b) (h2 : lamportLT b a) : False := by
  obtain ⟨ac, aa⟩ := a; obtain ⟨bc, ba⟩ := b
  simp only [lamportLT, lamport_cmp] at *
  split_ifs at * <;> simp_all <;> omega

theorem lamport_cmp_not_lt {a b : OpId} (h : lamport_cmp a b ≠ Ordering.lt) :
    a = b ∨ lamportLT b a := by
  rcases hc : lamport_cmp a b with _ | _ | _
  · exact absurd hc h
  · exact Or.inl ((lamport_cmp_eq_iff a b).mp hc)
  · exact Or.inr ((lamport_cmp_gt_iff a b).mp hc)

/-! Correctness of the fuel-indexed binary search. -/

theorem bsearchFuel_ok (f : Nat → Ordering) :
    ∀ fuel left right i, bsearchFuel f fuel left right = Except.ok i →
      left ≤ i ∧ i < right ∧ f i = Ordering.eq := by
  intro fuel
  induction fuel with
  | zero => intro l r i h; simp [bsearchFuel] at h
  | succ n ih =>
    intro l r i h
    simp only [bsearchFuel] at h
    split at h
    case isTrue hlr =>
      split at h
      case h_1 hm =>
        obtain ⟨h1, h2, h3⟩ := ih _ _ _ h
        exact ⟨by omega, h2, h3⟩
      case h_2 hm =>
        obtain ⟨h1, h2, h3⟩ := ih _ _ _ h
        exact ⟨h1, by omega, h3⟩
      case h_3 hm =>
        cases h
        exact ⟨by omega, by omega, hm⟩
    case isFalse hlr => cases h

theorem bsearchFuel_error (f : Nat → Ordering) (n : Nat)
    (hf : ∀ a b, a < b → b < n → f a ≠ Ordering.lt → f b = Ordering.gt) :
    ∀ fuel left right j, right - left ≤ fuel → left ≤ right → right ≤ n →
      (∀ i, i < left → f i = Ordering.lt) →
      (∀ i, right ≤ i → i < n → f i = Ordering.gt) →
      bsearchFuel f fuel left right = Except.error j →
      left ≤ j ∧ j ≤ right ∧ (∀ i, i < j → f i = Ordering.lt) ∧
        (∀ i, j ≤ i → i < n → f i = Ordering.gt) := by
  intro fuel
  induction fuel with
  | zero =>
    intro l r j hfuel hlr hrn hpre hpost h
    simp only [bsearchFuel, Except.error.injEq] at h
    subst h
    have : l = r := by omega
    subst this
    exact ⟨le_refl _, le_refl _, hpre, hpost⟩
  | succ m ih =>
    intro l r j hfuel hlr hrn hpre hpost h
    simp only [bsearchFuel] at h
    split at h
    case isTrue hltr =>
      have hmid1 : l ≤ l + (r - l) / 2 := by omega
      have hmid2 : l + (r - l) / 2 < r := by omega
      split at h
      case h_1 hm =>
        have hpre' : ∀ i, i < l + (r - l) / 2 + 1 → f i = Ordering.lt := by
          intro i hi
          by_cases hil : i < l
          · exact hpre i hil
          · by_cases hieq : i = l + (r - l) / 2
            · exact hieq ▸ hm
            · by_contra hne
              have := hf i (l + (r - l) / 2) (by omega) (by omega) hne
              rw [hm] at this
              cases this
        obtain ⟨h1, h2, h3, h4⟩ := ih _ _ _ (by omega) (by omega) hrn hpre' hpost h
        exact ⟨by omega, h2, h3, h4⟩
      case h_2 hm =>
        have hpost' : ∀ i, l + (r - l) / 2 ≤ i → i < n → f i = Ordering.gt := by
          intro i hi hin
          by_cases hieq : i = l + (r - l) / 2
          · exact hieq ▸ hm
          · exact hf (l + (r - l) / 2) i (by omega) hin (by rw [hm]; intro hc; cases hc)
        obtain ⟨h1, h2, h3, h4⟩ := ih _ _ _ (by omega) hmid1 (by omega) hpre hpost' h
        exact ⟨h1, by omega, h3, h4⟩
      case h_3 hm => cases h
    case isFalse hltr =>
      simp only [Except.error.injEq] at h
      subst h
      have : l = r := by omega
      subst this
      exact ⟨le_refl _, le_refl _, hpre, hpost⟩

/-! Specification of `MarkStateMachine.find` on sorted states. -/

theorem keyCmpAt_eq_of_getElem (state : List (OpId × Mark)) (t : OpId) (i : Nat)
    (h : i < state.length) : keyCmpAt state t i = lamport_cmp (state[i]).1 t := by
  unfold keyCmpAt
  rw [List.getElem?_eq_getElem h]

theorem sorted_keyCmpAt_gt (st : MarkStateMachine) (hs : SortedSt st) (t : OpId) :
    ∀ a b, a < b → b < st.state.length → keyCmpAt st.state t a ≠ Ordering.lt →
      keyCmpAt st.state t b = Ordering.gt := by
  intro a b hab hb hna
  have ha : a < st.state.length := lt_trans hab hb
  have hpw := (List.pairwise_iff_getElem.mp hs) a b (by simpa using ha) (by simpa using hb) hab
  rw [List.getElem_map, List.getElem_map] at hpw
  rw [keyCmpAt_eq_of_getElem _ _ _ ha] at hna
  rw [keyCmpAt_eq_of_getElem _ _ _ hb]
  rcases lamport_cmp_not_lt hna with heq | hgt
  · exact (lamport_cmp_gt_iff _ _).mpr (heq ▸ hpw)
  · exact (lamport_cmp_gt_iff _ _).mpr (lamportLT_trans hgt hpw)

theorem find_ok_spec (st : MarkStateMachine) (t : OpId) (i : Nat)
    (h : st.find t = Except.ok i) :
    ∃ hi : i < st.state.length, (st.state[i]).1 = t := by
  unfold MarkStateMachine.find binary_search_by at h
  obtain ⟨_, h2, h3⟩ := bsearchFuel_ok _ _ _ _ _ h
  refine ⟨h2, ?_⟩
  rw [keyCmpAt_eq_of_getElem _ _ _ h2] at h3
  exact (lamport_cmp_eq_iff _ _).mp h3

theorem find_error_spec (st : MarkStateMachine) (hs : SortedSt st) (t : OpId) (j : Nat)
    (h : st.find t = Except.error j) :
    j ≤ st.state.length ∧
      (∀ i, ∀ hi : i < st.state.length, i < j → lamportLT (st.state[i]).1 t) ∧
      (∀ i, ∀ hi : i < st.state.length, j ≤ i → lamportLT t (st.state[i]).1) := by
  unfold MarkStateMachine.find binary_search_by at h
  obtain ⟨_, h2, h3, h4⟩ := bsearchFuel_error _ st.state.length (sorted_keyCmpAt_gt st hs t)
    st.state.length 0 st.state.length j (by omega) (by omega) (le_refl _)
    (by intro i hi; omega) (by intro i hi hin; omega) h
  refine ⟨h2, ?_, ?_⟩
  · intro i hi hij
    have := h3 i hij
    rw [keyCmpAt_eq_of_getElem _ _ _ hi] at this
    exact this
  · intro i hi hij
    have := h4 i hij hi
    rw [keyCmpAt_eq_of_getElem _ _ _ hi] at this
    exact (lamport_cmp_gt_iff _ _).mp this

theorem find_error_not_mem (st : MarkStateMachine) (hs : SortedSt st) (t : OpId) (j : Nat)
    (h : st.find t = Except.error j) : t ∉ st.state.map Prod.fst := by
  intro hmem
  obtain ⟨n, hn, hnt⟩ := List.mem_iff_getElem.mp hmem
  have hn' : n < st.state.length := by simpa using hn
  rw [List.getElem_map] at hnt
  obtain ⟨_, h2, h3⟩ := find_error_spec st hs t j h
  by_cases hnj : n < j
  · exact lamportLT_irrefl t (hnt ▸ h2 n hn' hnj)
  · exact lamportLT_irrefl t (hnt ▸ h3 n hn' (by omega))

theorem find_mem_ok (st : MarkStateMachine) (hs : SortedSt st) (t : OpId)
    (hmem : t ∈ st.state.map Prod.fst) : ∃ i, st.find t = Except.ok i := by
  rcases h : st.find t with j | i
  · exact absurd hmem (find_error_not_mem st hs t j h)
  · exact ⟨i, rfl⟩

theorem find_ok_mem (st : MarkStateMachine) (t : OpId) (i : Nat)
    (h : st.find t = Except.ok i) : t ∈ st.state.map Prod.fst := by
  obtain ⟨hi, hit⟩ := find_ok_spec st t i h
  exact hit ▸ List.mem_map_of_mem Prod.fst (st.state.getElem_mem hi)

/-! Preservation of the sorted-state invariant by the state-editing steps. -/

theorem sorted_insertAt (st : MarkStateMachine) (hs : SortedSt st) (t : OpId) (m : Mark)
    (j : Nat) (h : st.find t = Except.error j) :
    List.Sorted lamportLT (((st.state.take j) ++ (t, m) :: (st.state.drop j)).map Prod.fst) := by
  obtain ⟨hj, hlt, hgt⟩ := find_error_spec st hs t j h
  rw [List.map_append, List.map_cons, List.map_take, List.map_drop]
  have hmem_take : ∀ a ∈ (st.state.map Prod.fst).take j, lamportLT a t := by
    intro a ha
    obtain ⟨i, hi, heq⟩ := List.mem_iff_getElem.mp ha
    have hi' : i < j ∧ i < st.state.length := by
      simpa [List.length_take] using hi
    subst heq
    rw [List.getElem_take, List.getElem_map]
    exact hlt i hi'.2 hi'.1
  have hmem_drop : ∀ b ∈ (st.state.map Prod.fst).drop j, lamportLT t b := by
    intro b hb
    obtain ⟨i, hi, heq⟩ := List.mem_iff_getElem.mp hb
    have hi' : j + i < st.state.length := by
      have := hi
      simp only [List.length_drop, List.length_map] at this
      omega
    subst heq
    rw [List.getElem_drop, List.getElem_map]
    exact hgt (j + i) hi' (by omega)
  have hpw : List.Pairwise lamportLT
      ((st.state.map Prod.fst).take j ++ (st.state.map Prod.fst).drop j) := by
    rw [List.take_append_drop]
    exact hs
  obtain ⟨hpw1, hpw2, hpw3⟩ := List.pairwise_append.mp hpw
  refine List.pairwise_append.mpr ⟨hpw1, List.pairwise_cons.mpr ⟨hmem_drop, hpw2⟩, ?_⟩
  intro a ha b hb
  rcases List.mem_cons.mp hb with rfl | hb'
  · exact hmem_take a ha
  · exact hpw3 a ha b hb'

theorem sorted_eraseAt (st : MarkStateMachine) (hs : SortedSt st) (j : Nat) :
    List.Sorted lamportLT (((st.state.take j) ++ (st.state.drop (j + 1))).map Prod.fst) := by
  have hrw : (st.state.take j) ++ (st.state.drop (j + 1)) = st.state.eraseIdx j :=
    (List.eraseIdx_eq_take_drop_succ _ _).symm
  rw [hrw]
  exact List.Pairwise.sublist (List.Sublist.map _ (List.eraseIdx_sublist _ _)) hs

theorem set_getElem?_self (l : List α) (i : Nat) (a : α) (h : l[i]? = some a) :
    l.set i a = l := by
  apply List.ext_getElem?
  intro n
  rw [List.getElem?_set]
  by_cases hin : i = n
  · subst hin
    have hi : i < l.length := (List.getElem?_eq_some.mp h).1
    rw [if_pos rfl, if_pos hi, h]
  · rw [if_neg hin]

theorem sorted_set_fst (st : MarkStateMachine) (hs : SortedSt st) (i : Nat) (p : OpId × Mark)
    (m : Mark) (h : st.state[i]? = some p) :
    List.Sorted lamportLT ((st.state.set i (p.1, m)).map Prod.fst) := by
  rw [List.map_set]
  have : (st.state.map Prod.fst)[i]? = some p.1 := by
    rw [List.getElem?_map, h]
    rfl
  rw [set_getElem?_self _ _ _ this]
  exact hs

/-! Helper facts about filters, `lastIdxWhere`, and name lookups. -/

theorem filter_set_of_not (p : α → Bool) :
    ∀ (l : List α) (i : Nat) (a b : α), l[i]? = some a → p a = false → p b = false →
      (l.set i b).filter p = l.filter p := by
  intro l
  induction l with
  | nil => intro i a b h; simp at h
  | cons x t ih =>
    intro i a b h ha hb
    cases i with
    | zero =>
      simp only [List.getElem?_cons_zero, Option.some.injEq] at h
      subst h
      simp [List.filter_cons, ha, hb]
    | succ n =>
      simp only [List.getElem?_cons_succ] at h
      simp only [List.set_cons_succ, List.filter_cons]
      rw [ih n a b h ha hb]

theorem lastIdxWhere_some (p : α → Bool) :
    ∀ (l : List α) (i : Nat), lastIdxWhere p l = some i →
      ∃ a, l[i]? = some a ∧ p a = true := by
  intro l
  induction l with
  | nil => intro i h; simp [lastIdxWhere] at h
  | cons x t ih =>
    intro i h
    rcases hrec : lastIdxWhere p t with _ | k
    · simp only [lastIdxWhere, hrec] at h
      by_cases hx : p x
      · rw [if_pos hx] at h
        simp only [Option.some.injEq] at h
        subst h
        exact ⟨x, by simp, hx⟩
      · rw [if_neg hx] at h
        cases h
    · simp only [lastIdxWhere, hrec, Option.some.injEq] at h
      subst h
      obtain ⟨a, ha, hpa⟩ := ih k hrec
      exact ⟨a, by simpa using ha, hpa⟩

theorem mark_below_name (state : List (OpId × Mark)) (index : Nat) (mark b : Mark)
    (h : mark_below state index mark = some b) : b.data.name = mark.data.name := by
  unfold mark_below at h
  rcases hl : ((state.take index).filter
      (fun p => p.2.data.name == mark.data.name)).getLast? with _ | pr
  · rw [hl] at h; cases h
  · rw [hl] at h
    simp only [Option.map_some', Option.some.injEq] at h
    subst h
    have hmem := List.mem_of_mem_getLast? hl
    have := (List.mem_filter.mp hmem).2
    exact beq_iff_eq.mp this

theorem mark_above_name (state : List (OpId × Mark)) (index : Nat) (mark b : Mark)
    (h : mark_above state index mark = some b) : b.data.name = mark.data.name := by
  unfold mark_above at h
  rcases hl : (state.drop index).find? (fun p => p.2.data.name == mark.data.name) with _ | pr
  · rw [hl] at h; cases h
  · rw [hl] at h
    simp only [Option.map_some', Option.some.injEq] at h
    subst h
    have hp := List.find?_some hl
    exact beq_iff_eq.mp hp

/-! Branch-by-branch computation lemmas for the begin/end methods. -/

theorem begin_dup (st : MarkStateMachine) (id : OpId) (pos : Nat) (data : MarkData) (i : Nat)
    (h : st.find id = Except.ok i) :
    st.mark_or_unmark_begin id pos data = (none, st) := by
  unfold MarkStateMachine.mark_or_unmark_begin
  simp only [h]

theorem begin_above (st : MarkStateMachine) (id : OpId) (pos : Nat) (data : MarkData)
    (index : Nat) (above : Mark)
    (hf : st.find id = Except.error index)
    (ha : mark_above st.state index (Mark.from_data pos pos data) = some above) :
    st.mark_or_unmark_begin id pos data =
      (none, ⟨st.state.take index ++
        (id, Mark.from_data (if above.value = data.value then above.start else pos) pos data) ::
        st.state.drop index⟩) := by
  simp only [Mark.from_data] at ha
  by_cases hv : above.data.value = data.value
  · simp [MarkStateMachine.mark_or_unmark_begin, hf, ha, hv, Mark.value, Mark.from_data]
  · simp [MarkStateMachine.mark_or_unmark_begin, hf, ha, hv, Mark.value, Mark.from_data]

theorem begin_below_eq (st : MarkStateMachine) (id : OpId) (pos : Nat) (data : MarkData)
    (index : Nat) (below : Mark)
    (hf : st.find id = Except.error index)
    (ha : mark_above st.state index (Mark.from_data pos pos data) = none)
    (hb : mark_below st.state index (Mark.from_data pos pos data) = some below)
    (hv : below.value = data.value) :
    st.mark_or_unmark_begin id pos data =
      (none, ⟨st.state.take index ++ (id, Mark.from_data below.start pos data) ::
        st.state.drop index⟩) := by
  simp only [Mark.from_data] at ha hb
  have hv' : below.data.value = data.value := hv
  simp [MarkStateMachine.mark_or_unmark_begin, hf, ha, hb, hv', Mark.value, Mark.from_data]

theorem begin_below_ne (st : MarkStateMachine) (id : OpId) (pos : Nat) (data : MarkData)
    (index : Nat) (below : Mark)
    (hf : st.find id = Except.error index)
    (ha : mark_above st.state index (Mark.from_data pos pos data) = none)
    (hb : mark_below st.state index (Mark.from_data pos pos data) = some below)
    (hv : below.value ≠ data.value) :
    st.mark_or_unmark_begin id pos data =
      (some { below with endPos := pos },
        ⟨st.state.take index ++ (id, Mark.from_data pos pos data) :: st.state.drop index⟩) := by
  simp only [Mark.from_data] at ha hb
  have hv' : below.data.value ≠ data.value := hv
  simp [MarkStateMachine.mark_or_unmark_begin, hf, ha, hb, hv', Mark.value, Mark.from_data]

theorem begin_no_neighbor (st : MarkStateMachine) (id : OpId) (pos : Nat) (data : MarkData)
    (index : Nat)
    (hf : st.find id = Except.error index)
    (ha : mark_above st.state index (Mark.from_data pos pos data) = none)
    (hb : mark_below st.state index (Mark.from_data pos pos data) = none) :
    st.mark_or_unmark_begin id pos data =
      (none, ⟨st.state.take index ++ (id, Mark.from_data pos pos data) ::
        st.state.drop index⟩) := by
  simp only [Mark.from_data] at ha hb
  simp [MarkStateMachine.mark_or_unmark_begin, hf, ha, hb, Mark.from_data]

theorem mark_begin_eq (st : MarkStateMachine) (id : OpId) (pos : Nat) (data : MarkData) :
    st.mark_begin id pos data =
      ((st.mark_or_unmark_begin id pos data).1.bind
        (fun m => if m.is_null then none else some m),
       (st.mark_or_unmark_begin id pos data).2) := rfl

theorem mark_end_eq (st : MarkStateMachine) (id : OpId) (pos : Nat) :
    st.mark_end id pos =
      ((st.mark_or_unmark_end id pos).1.bind
        (fun m => if m.is_null then none else some m),
       (st.mark_or_unmark_end id pos).2) := rfl

theorem end_absent (st : MarkStateMachine) (id : OpId) (pos : Nat) (j : Nat)
    (h : st.find id.prev = Except.error j) :
    st.mark_or_unmark_end id pos = (none, st) := by
  unfold MarkStateMachine.mark_or_unmark_end
  simp only [h]

theorem end_above (st : MarkStateMachine) (id : OpId) (pos : Nat) (index : Nat)
    (entry : OpId × Mark) (a : Mark)
    (hf : st.find id.prev = Except.ok index)
    (he : st.state[index]? = some entry)
    (ha : mark_above (st.state.take index ++ st.state.drop (index + 1)) index
        { entry.2 with endPos := pos } = some a) :
    st.mark_or_unmark_end id pos =
      (none, ⟨st.state.take index ++ st.state.drop (index + 1)⟩) := by
  unfold MarkStateMachine.mark_or_unmark_end
  simp only [hf, he, ha]
  rfl

theorem end_no_below (st : MarkStateMachine) (id : OpId) (pos : Nat) (index : Nat)
    (entry : OpId × Mark)
    (hf : st.find id.prev = Except.ok index)
    (he : st.state[index]? = some entry)
    (ha : mark_above (st.state.take index ++ st.state.drop (index + 1)) index
        { entry.2 with endPos := pos } = none)
    (hb : lastIdxWhere (fun p => p.2.data.name == ({ entry.2 with endPos := pos } : Mark).data.name)
        ((st.state.take index ++ st.state.drop (index + 1)).take index) = none) :
    st.mark_or_unmark_end id pos =
      (some { entry.2 with endPos := pos },
       ⟨st.state.take index ++ st.state.drop (index + 1)⟩) := by
  unfold MarkStateMachine.mark_or_unmark_end
  simp only [hf, he, ha, hb]
  rfl

theorem end_below_eq (st : MarkStateMachine) (id : OpId) (pos : Nat) (index : Nat)
    (entry : OpId × Mark) (bi : Nat) (below : OpId × Mark)
    (hf : st.find id.prev = Except.ok index)
    (he : st.state[index]? = some entry)
    (ha : mark_above (st.state.take index ++ st.state.drop (index + 1)) index
        { entry.2 with endPos := pos } = none)
    (hb : lastIdxWhere (fun p => p.2.data.name == ({ entry.2 with endPos := pos } : Mark).data.name)
        ((st.state.take index ++ st.state.drop (index + 1)).take index) = some bi)
    (hbe : (st.state.take index ++ st.state.drop (index + 1))[bi]? = some below)
    (hv : below.2.value = ({ entry.2 with endPos := pos } : Mark).value) :
    st.mark_or_unmark_end id pos =
      (none, ⟨st.state.take index ++ st.state.drop (index + 1)⟩) := by
  unfold MarkStateMachine.mark_or_unmark_end
  simp only [hf, he, ha, hb, hbe, hv]
  simp

theorem end_below_ne (st : MarkStateMachine) (id : OpId) (pos : Nat) (index : Nat)
    (entry : OpId × Mark) (bi : Nat) (below : OpId × Mark)
    (hf : st.find id.prev = Except.ok index)
    (he : st.state[index]? = some entry)
    (ha : mark_above (st.state.take index ++ st.state.drop (index + 1)) index
        { entry.2 with endPos := pos } = none)
    (hb : lastIdxWhere (fun p => p.2.data.name == ({ entry.2 with endPos := pos } : Mark).data.name)
        ((st.state.take index ++ st.state.drop (index + 1)).take index) = some bi)
    (hbe : (st.state.take index ++ st.state.drop (index + 1))[bi]? = some below)
    (hv : below.2.value ≠ ({ entry.2 with endPos := pos } : Mark).value) :
    st.mark_or_unmark_end id pos =
      (some { entry.2 with endPos := pos },
       ⟨(st.state.take index ++ st.state.drop (index + 1)).set bi
         (below.1, { below.2 with start := pos })⟩) := by
  unfold MarkStateMachine.mark_or_unmark_end
  simp only [hf, he, ha, hb, hbe]
  rw [if_neg hv]
  simp

/-! Exhaustive case analyses of the state updates. -/

theorem begin_state_cases (st : MarkStateMachine) (id : OpId) (pos : Nat) (data : MarkData) :
    (st.mark_or_unmark_begin id pos data).2 = st ∨
    ∃ index m, st.find id = Except.error index ∧ m.data = data ∧
      (st.mark_or_unmark_begin id pos data).2 =
        ⟨st.state.take index ++ (id, m) :: st.state.drop index⟩ := by
  rcases hf : st.find id with index | i
  · right
    rcases ha : mark_above st.state index (Mark.from_data pos pos data) with _ | above
    · rcases hb : mark_below st.state index (Mark.from_data pos pos data) with _ | below
      · rw [begin_no_neighbor st id pos data index hf ha hb]
        exact ⟨index, Mark.from_data pos pos data, rfl, rfl, rfl⟩
      · by_cases hv : below.value = data.value
        · rw [begin_below_eq st id pos data index below hf ha hb hv]
          exact ⟨index, Mark.from_data below.start pos data, rfl, rfl, rfl⟩
        · rw [begin_below_ne st id pos data index below hf ha hb hv]
          exact ⟨index, Mark.from_data pos pos data, rfl, rfl, rfl⟩
    · rw [begin_above st id pos data index above hf ha]
      exact ⟨index, Mark.from_data (if above.value = data.value then above.start else pos)
        pos data, rfl, rfl, rfl⟩
  · left
    rw [begin_dup st id pos data i hf]

theorem end_state_cases (st : MarkStateMachine) (id : OpId) (pos : Nat) :
    (st.mark_or_unmark_end id pos).2 = st ∨
    ∃ index entry, st.find id.prev = Except.ok index ∧ st.state[index]? = some entry ∧
      ((st.mark_or_unmark_end id pos).2 =
          ⟨st.state.take index ++ st.state.drop (index + 1)⟩ ∨
       ∃ bi below, bi < index ∧
         (st.state.take index ++ st.state.drop (index + 1))[bi]? = some below ∧
         below.2.data.name = entry.2.data.name ∧
         (st.mark_or_unmark_end id pos).2 =
           ⟨(st.state.take index ++ st.state.drop (index + 1)).set bi
             (below.1, { below.2 with start := pos })⟩) := by
  rcases hf : st.find id.prev with j | index
  · left
    rw [end_absent st id pos j hf]
  · rcases he : st.state[index]? with _ | entry
    · left
      unfold MarkStateMachine.mark_or_unmark_end
      simp only [hf, he]
    · right
      refine ⟨index, entry, rfl, he, ?_⟩
      rcases ha : mark_above (st.state.take index ++ st.state.drop (index + 1)) index
          { entry.2 with endPos := pos } with _ | a
      · rcases hb : lastIdxWhere
            (fun p => p.2.data.name == ({ entry.2 with endPos := pos } : Mark).data.name)
            ((st.state.take index ++ st.state.drop (index + 1)).take index) with _ | bi
        · left
          rw [end_no_below st id pos index entry hf he ha hb]
        · obtain ⟨a2, ha2, hpa⟩ := lastIdxWhere_some _ _ _ hb
          rw [List.getElem?_take] at ha2
          by_cases hbi : bi < index
          · rw [if_pos hbi] at ha2
            have hname : a2.2.data.name = entry.2.data.name := by
              have hp : (a2.2.data.name == ({ entry.2 with endPos := pos } : Mark).data.name)
                  = true := hpa
              exact beq_iff_eq.mp hp
            by_cases hv : a2.2.value = ({ entry.2 with endPos := pos } : Mark).value
            · left
              rw [end_below_eq st id pos index entry bi a2 hf he ha hb ha2 hv]
            · right
              refine ⟨bi, a2, hbi, ha2, hname, ?_⟩
              rw [end_below_ne st id pos index entry bi a2 hf he ha hb ha2 hv]
          · rw [if_neg hbi] at ha2
            cases ha2
      · left
        rw [end_above st id pos index entry a hf he ha]

/-! Claim theorems. -/

/-- C2: Scenario A (simple span): from the empty engine,
`mark_begin(id=1, pos=2, bold:true)` returns nothing, the end operation id 2 is
paired with begin id 1, and `mark_end(id=2, pos=6)` returns
`Mark{name:"bold", value:true, start:2, end:6}`. -/
theorem C2_simple_span :
    OpId.prev ⟨2, 0⟩ = (⟨1, 0⟩ : OpId) ∧
    (emptyMachine.mark_begin ⟨1, 0⟩ 2 boldTrue).1 = none ∧
    (stA1.mark_end ⟨2, 0⟩ 6).1 =
      some (Mark.new "bold" (ScalarValue.Boolean true) 2 6) := by
  refine ⟨by decide, by decide, by decide⟩

/-- C8: the `ExpandMark` truth table, `(before, after)` being `Before:(T,F)`,
`After:(F,T)`, `Both:(T,T)`, `None:(F,F)`, and the default variant is `After`. -/
theorem C8_expandmark_table :
    ExpandMark.Before.before = true ∧ ExpandMark.Before.after = false ∧
    ExpandMark.After.before = false ∧ ExpandMark.After.after = true ∧
    ExpandMark.Both.before = true ∧ ExpandMark.Both.after = true ∧
    ExpandMark.None.before = false ∧ ExpandMark.None.after = false ∧
    (default : ExpandMark) = ExpandMark.After := by
  refine ⟨rfl, rfl, rfl, rfl, rfl, rfl, rfl, rfl, rfl⟩

/-- C3: shadowing: when a begin finds no same-name entry at or after its insertion
index and the nearest same-name entry below has a different value, it returns a
copy of *below* truncated at `pos` and inserts the new candidate entry (and
`mark_begin` returns the same delta whenever it is not null). -/
theorem C3_shadowing (st : MarkStateMachine) (id : OpId) (pos : Nat) (data : MarkData)
    (index : Nat) (below : Mark)
    (hf : st.find id = Except.error index)
    (ha : mark_above st.state index (Mark.from_data pos pos data) = none)
    (hb : mark_below st.state index (Mark.from_data pos pos data) = some below)
    (hv : below.value ≠ data.value) :
    st.mark_or_unmark_begin id pos data =
      (some { below with endPos := pos },
        ⟨st.state.take index ++ (id, Mark.from_data pos pos data) :: st.state.drop index⟩) ∧
    (below.is_null = false →
      st.mark_begin id pos data =
        (some { below with endPos := pos },
          ⟨st.state.take index ++ (id, Mark.from_data pos pos data) :: st.state.drop index⟩)) := by
  have h1 := begin_below_ne st id pos data index below hf ha hb hv
  refine ⟨h1, fun hn => ?_⟩
  rw [mark_begin_eq, h1]
  have hn' : ({ below with endPos := pos } : Mark).is_null = false := hn
  simp [hn']

/-- C3 witness: Scenario B concretely: after `begin(id=1, pos=0, bold:true)`,
`begin(id=3, pos=2, bold:false)` returns `Mark{bold:true, start:0, end:2}` and
id 3's candidate becomes the active entry from position 2. -/
theorem C3_shadowing_witness :
    stB1.mark_begin ⟨3, 0⟩ 2 boldFalse =
      (some (Mark.new "bold" (ScalarValue.Boolean true) 0 2),
       ⟨[(⟨1, 0⟩, Mark.new "bold" (ScalarValue.Boolean true) 0 0),
         (⟨3, 0⟩, Mark.new "bold" (ScalarValue.Boolean false) 2 2)]⟩) := by
  have h := (C3_shadowing stB1 ⟨3, 0⟩ 2 boldFalse 1
      (Mark.new "bold" (ScalarValue.Boolean true) 0 0)
      (by decide) (by decide) (by decide) (by decide)).2 (by decide)
  exact h.trans (by decide)

/-- C4: coalesce: when a begin finds no same-name entry at or after its insertion
index and the nearest same-name entry below has an equal value, it returns nothing
and the inserted candidate's start is set to below's start. -/
theorem C4_coalesce (st : MarkStateMachine) (id : OpId) (pos : Nat) (data : MarkData)
    (index : Nat) (below : Mark)
    (hf : st.find id = Except.error index)
    (ha : mark_above st.state index (Mark.from_data pos pos data) = none)
    (hb : mark_below st.state index (Mark.from_data pos pos data) = some below)
    (hv : below.value = data.value) :
    st.mark_or_unmark_begin id pos data =
      (none, ⟨st.state.take index ++ (id, Mark.from_data below.start pos data) ::
        st.state.drop index⟩) ∧
    st.mark_begin id pos data =
      (none, ⟨st.state.take index ++ (id, Mark.from_data below.start pos data) ::
        st.state.drop index⟩) := by
  have h1 := begin_below_eq st id pos data index below hf ha hb hv
  exact ⟨h1, by rw [mark_begin_eq, h1]; rfl⟩

/-- C4 witness: Scenario C concretely: after `begin(id=1, pos=0, bold:true)`,
`begin(id=2, pos=3, bold:true)` returns nothing and the entry stored for id 2
has start 0. -/
theorem C4_coalesce_witness :
    stB1.mark_begin ⟨2, 0⟩ 3 boldTrue =
      (none,
       ⟨[(⟨1, 0⟩, Mark.new "bold" (ScalarValue.Boolean true) 0 0),
         (⟨2, 0⟩, Mark.new "bold" (ScalarValue.Boolean true) 0 3)]⟩) := by
  have h := (C4_coalesce stB1 ⟨2, 0⟩ 3 boldTrue 1
      (Mark.new "bold" (ScalarValue.Boolean true) 0 0)
      (by decide) (by decide) (by decide) (by decide)).2
  exact h.trans (by decide)

/-- C10: above wins regardless of value: when a begin finds a same-name entry at
or after its insertion index, no delta is returned and no existing entry is
modified; the candidate is inserted with start `above.start` when the values are
equal and with start `pos` otherwise, without consulting below entries. -/
theorem C10_above_wins (st : MarkStateMachine) (id : OpId) (pos : Nat) (data : MarkData)
    (index : Nat) (above : Mark)
    (hf : st.find id = Except.error index)
    (ha : mark_above st.state index (Mark.from_data pos pos data) = some above) :
    st.mark_or_unmark_begin id pos data =
      (none, ⟨st.state.take index ++
        (id, Mark.from_data (if above.value = data.value then above.start else pos) pos data) ::
        st.state.drop index⟩) ∧
    st.mark_begin id pos data =
      (none, ⟨st.state.take index ++
        (id, Mark.from_data (if above.value = data.value then above.start else pos) pos data) ::
        st.state.drop index⟩) := by
  have h1 := begin_above st id pos data index above hf ha
  exact ⟨h1, by rw [mark_begin_eq, h1]; rfl⟩

/-- C10 witness: with an open `bold` span of id 3 starting at 2, a begin for id 1
at position 0 with the same value inherits start 2, emits nothing, and modifies
no existing entry. -/
theorem C10_above_wins_witness :
    ((emptyMachine.mark_begin ⟨3, 0⟩ 2 boldTrue).2).mark_begin ⟨1, 0⟩ 0 boldTrue =
      (none,
       ⟨[(⟨1, 0⟩, Mark.new "bold" (ScalarValue.Boolean true) 2 0),
         (⟨3, 0⟩, Mark.new "bold" (ScalarValue.Boolean true) 2 2)]⟩) := by
  have h := (C10_above_wins ((emptyMachine.mark_begin ⟨3, 0⟩ 2 boldTrue).2) ⟨1, 0⟩ 0 boldTrue 0
      (Mark.new "bold" (ScalarValue.Boolean true) 2 2)
      (by decide) (by decide)).2
  exact h.trans (by decide)

/-- C5: anomaly atomicity: on a state satisfying the sorted invariant, a begin
whose id is already present returns nothing and leaves the state unchanged, and
an end whose paired begin id is absent returns nothing and leaves the state
unchanged. -/
theorem C5_anomaly_atomicity (st : MarkStateMachine) (hs : SortedSt st) (id : OpId)
    (pos : Nat) (data : MarkData) (idE : OpId) (posE : Nat) :
    (id ∈ st.state.map Prod.fst →
      st.mark_or_unmark_begin id pos data = (none, st) ∧
      st.mark_begin id pos data = (none, st)) ∧
    (idE.prev ∉ st.state.map Prod.fst →
      st.mark_or_unmark_end idE posE = (none, st) ∧
      st.mark_end idE posE = (none, st)) := by
  constructor
  · intro hmem
    obtain ⟨i, hok⟩ := find_mem_ok st hs id hmem
    have h1 := begin_dup st id pos data i hok
    exact ⟨h1, by rw [mark_begin_eq, h1]; rfl⟩
  · intro hmem
    rcases hfe : st.find idE.prev with j | i
    · have h1 := end_absent st idE posE j hfe
      exact ⟨h1, by rw [mark_end_eq, h1]; rfl⟩
    · exact absurd (find_ok_mem st idE.prev i hfe) hmem

/-- C5 witness: in the state holding the open span of id 1, a duplicate begin for
id 1 and an end paired with the absent begin id 8 are both no-ops. -/
theorem C5_anomaly_atomicity_witness :
    stB1.mark_begin ⟨1, 0⟩ 5 boldFalse = (none, stB1) ∧
    stB1.mark_end ⟨9, 0⟩ 5 = (none, stB1) :=
  ⟨((C5_anomaly_atomicity stB1 (by decide) ⟨1, 0⟩ 5 boldFalse ⟨9, 0⟩ 5).1 (by decide)).2,
   ((C5_anomaly_atomicity stB1 (by decide) ⟨1, 0⟩ 5 boldFalse ⟨9, 0⟩ 5).2 (by decide)).2⟩

/-- C6: null suppression: `mark_begin`/`mark_end` never return a null-valued
mark; when the internally resolved delta is null the call returns nothing while
performing exactly the same state mutation as the unfiltered method. -/
theorem C6_null_suppression (st : MarkStateMachine) (id : OpId) (pos : Nat)
    (data : MarkData) (idE : OpId) (posE : Nat) :
    ((st.mark_begin id pos data).1.all (fun m => !m.is_null)) = true ∧
    (st.mark_begin id pos data).2 = (st.mark_or_unmark_begin id pos data).2 ∧
    (∀ m, (st.mark_or_unmark_begin id pos data).1 = some m → m.is_null = true →
      (st.mark_begin id pos data).1 = none) ∧
    ((st.mark_end idE posE).1.all (fun m => !m.is_null)) = true ∧
    (st.mark_end idE posE).2 = (st.mark_or_unmark_end idE posE).2 ∧
    (∀ m, (st.mark_or_unmark_end idE posE).1 = some m → m.is_null = true →
      (st.mark_end idE posE).1 = none) := by
  rw [mark_begin_eq, mark_end_eq]
  refine ⟨?_, rfl, ?_, ?_, rfl, ?_⟩
  · rcases (st.mark_or_unmark_begin id pos data).1 with _ | m
    · rfl
    · by_cases hm : m.is_null <;> simp [hm]
  · intro m hm hnull
    rw [hm]
    simp [hnull]
  · rcases (st.mark_or_unmark_end idE posE).1 with _ | m
    · rfl
    · by_cases hm : m.is_null <;> simp [hm]
  · intro m hm hnull
    rw [hm]
    simp [hnull]

/-- C6 witness: Scenario D concretely: over an open null (unmark) span, a begin
with a different value resolves a null-valued delta, which `mark_begin`
suppresses while still inserting the candidate. -/
theorem C6_null_suppression_witness :
    (stNull1.mark_begin ⟨3, 0⟩ 2 boldTrue).1 = none ∧
    (stNull1.mark_begin ⟨3, 0⟩ 2 boldTrue).2 =
      (stNull1.mark_or_unmark_begin ⟨3, 0⟩ 2 boldTrue).2 ∧
    (stNull1.mark_or_unmark_begin ⟨3, 0⟩ 2 boldTrue).1 =
      some (Mark.new "bold" ScalarValue.Null 0 2) :=
  ⟨(C6_null_suppression stNull1 ⟨3, 0⟩ 2 boldTrue ⟨9, 0⟩ 0).2.2.1
      (Mark.new "bold" ScalarValue.Null 0 2) (by decide) (by decide),
   (C6_null_suppression stNull1 ⟨3, 0⟩ 2 boldTrue ⟨9, 0⟩ 0).2.1,
   by decide⟩

/-- C7: the sorted-state invariant: a state sorted by the canonical total order
stays sorted under every `mark_begin` and `mark_end`, and as a consequence its
identifiers are pairwise distinct. -/
theorem C7_sorted_invariant (st : MarkStateMachine) (hs : SortedSt st) (id : OpId)
    (pos : Nat) (data : MarkData) (idE : OpId) (posE : Nat) :
    SortedSt (st.mark_begin id pos data).2 ∧
    SortedSt (st.mark_or_unmark_begin id pos data).2 ∧
    SortedSt (st.mark_end idE posE).2 ∧
    SortedSt (st.mark_or_unmark_end idE posE).2 ∧
    (st.state.map Prod.fst).Nodup := by
  have hbegin : SortedSt (st.mark_or_unmark_begin id pos data).2 := by
    rcases begin_state_cases st id pos data with h | ⟨index, m, hf, _, h⟩
    · rw [h]; exact hs
    · rw [h]; exact sorted_insertAt st hs id m index hf
  have hend : SortedSt (st.mark_or_unmark_end idE posE).2 := by
    rcases end_state_cases st idE posE with h | ⟨index, entry, hf, he, hrest⟩
    · rw [h]; exact hs
    · have hs1 : SortedSt ⟨st.state.take index ++ st.state.drop (index + 1)⟩ :=
        sorted_eraseAt st hs index
      rcases hrest with h | ⟨bi, below, _, hbe, _, h⟩
      · rw [h]; exact hs1
      · rw [h]
        exact sorted_set_fst ⟨st.state.take index ++ st.state.drop (index + 1)⟩ hs1 bi below
          { below.2 with start := posE } hbe
  refine ⟨?_, hbegin, ?_, hend, ?_⟩
  · rw [mark_begin_eq]; exact hbegin
  · rw [mark_end_eq]; exact hend
  · haveI : IsIrrefl OpId lamportLT := ⟨lamportLT_irrefl⟩
    exact hs.nodup

/-- C7 witness: the invariant holds concretely across a shadowing begin and a
closing end on the single-entry sorted state. -/
theorem C7_sorted_invariant_witness :
    SortedSt (stB1.mark_begin ⟨3, 0⟩ 2 boldFalse).2 ∧
    SortedSt (stB1.mark_or_unmark_begin ⟨3, 0⟩ 2 boldFalse).2 ∧
    SortedSt (stB1.mark_end ⟨2, 0⟩ 6).2 ∧
    SortedSt (stB1.mark_or_unmark_end ⟨2, 0⟩ 6).2 ∧
    (stB1.state.map Prod.fst).Nodup :=
  C7_sorted_invariant stB1 (by decide) ⟨3, 0⟩ 2 boldFalse ⟨2, 0⟩ 6

theorem all_bind_nullfilter (o : Option Mark) (p : Mark → Bool) (h : o.all p = true) :
    (o.bind (fun m => if m.is_null then none else some m)).all p = true := by
  cases o with
  | none => rfl
  | some m =>
    by_cases hm : m.is_null
    · simp [hm]
    · simpa [hm] using h

theorem begin_result_name (st : MarkStateMachine) (id : OpId) (pos : Nat) (data : MarkData) :
    (st.mark_or_unmark_begin id pos data).1.all (fun m => m.data.name == data.name) = true := by
  rcases hf : st.find id with index | i
  · rcases ha : mark_above st.state index (Mark.from_data pos pos data) with _ | above
    · rcases hb : mark_below st.state index (Mark.from_data pos pos data) with _ | below
      · rw [begin_no_neighbor st id pos data index hf ha hb]
        rfl
      · by_cases hv : below.value = data.value
        · rw [begin_below_eq st id pos data index below hf ha hb hv]
          rfl
        · rw [begin_below_ne st id pos data index below hf ha hb hv]
          have hn := mark_below_name st.state index (Mark.from_data pos pos data) below hb
          show (({ below with endPos := pos } : Mark).data.name == data.name) = true
          exact beq_iff_eq.mpr hn
    · rw [begin_above st id pos data index above hf ha]
      rfl
  · rw [begin_dup st id pos data i hf]
    rfl

theorem end_result_name (st : MarkStateMachine) (id : OpId) (pos : Nat) (index : Nat)
    (entry : OpId × Mark) (hf : st.find id.prev = Except.ok index)
    (he : st.state[index]? = some entry) :
    (st.mark_or_unmark_end id pos).1.all (fun m => m.data.name == entry.2.data.name) = true := by
  rcases ha : mark_above (st.state.take index ++ st.state.drop (index + 1)) index
      { entry.2 with endPos := pos } with _ | a
  · rcases hb : lastIdxWhere
        (fun p => p.2.data.name == ({ entry.2 with endPos := pos } : Mark).data.name)
        ((st.state.take index ++ st.state.drop (index + 1)).take index) with _ | bi
    · rw [end_no_below st id pos index entry hf he ha hb]
      show (({ entry.2 with endPos := pos } : Mark).data.name == entry.2.data.name) = true
      exact beq_iff_eq.mpr rfl
    · obtain ⟨a2, ha2, hpa⟩ := lastIdxWhere_some _ _ _ hb
      rw [List.getElem?_take] at ha2
      by_cases hbi : bi < index
      · rw [if_pos hbi] at ha2
        by_cases hv : a2.2.value = ({ entry.2 with endPos := pos } : Mark).value
        · rw [end_below_eq st id pos index entry bi a2 hf he ha hb ha2 hv]
          rfl
        · rw [end_below_ne st id pos index entry bi a2 hf he ha hb ha2 hv]
          show (({ entry.2 with endPos := pos } : Mark).data.name == entry.2.data.name) = true
          exact beq_iff_eq.mpr rfl
      · rw [if_neg hbi] at ha2
        cases ha2
  · rw [end_above st id pos index entry a hf he ha]
    rfl

theorem filter_erase_entry (st : MarkStateMachine) (index : Nat) (entry : OpId × Mark)
    (he : st.state[index]? = some entry) (q : OpId × Mark → Bool) (hq : q entry = false) :
    (st.state.take index ++ st.state.drop (index + 1)).filter q = st.state.filter q := by
  obtain ⟨hidx, hval⟩ := List.getElem?_eq_some.mp he
  conv_rhs => rw [← List.take_append_drop index st.state]
  rw [← List.getElem_cons_drop st.state index hidx]
  rw [List.filter_append, List.filter_append, List.filter_cons]
  rw [hval, hq]
  simp

/-- C9: name isolation: a begin with payload name `n` leaves the subsequence of
entries with other names untouched and only ever returns a delta named `n`; an
end closing an entry named `n` likewise leaves all other-named entries untouched
and only returns a delta named `n`. -/
theorem C9_name_isolation (st : MarkStateMachine) (id : OpId) (pos : Nat) (data : MarkData)
    (idE : OpId) (posE : Nat) (index : Nat) (entry : OpId × Mark) :
    ((st.mark_begin id pos data).2.state.filter (fun p => p.2.data.name != data.name) =
      st.state.filter (fun p => p.2.data.name != data.name)) ∧
    ((st.mark_begin id pos data).1.all (fun m => m.data.name == data.name) = true) ∧
    (st.find idE.prev = Except.ok index → st.state[index]? = some entry →
      ((st.mark_end idE posE).2.state.filter
          (fun p => p.2.data.name != entry.2.data.name) =
        st.state.filter (fun p => p.2.data.name != entry.2.data.name)) ∧
      ((st.mark_end idE posE).1.all (fun m => m.data.name == entry.2.data.name) = true)) ∧
    (∀ j, st.find idE.prev = Except.error j → st.mark_end idE posE = (none, st)) := by
  refine ⟨?_, ?_, fun hf he => ⟨?_, ?_⟩, fun j hj => ?_⟩
  · rw [mark_begin_eq]
    rcases begin_state_cases st id pos data with h | ⟨index', m, _, hm, h⟩
    · rw [h]
    · rw [h]
      have hsplit : st.state.filter (fun p => p.2.data.name != data.name) =
          (st.state.take index').filter (fun p => p.2.data.name != data.name) ++
          (st.state.drop index').filter (fun p => p.2.data.name != data.name) := by
        rw [← List.filter_append, List.take_append_drop]
      rw [hsplit, List.filter_append, List.filter_cons]
      simp [hm]
  · rw [mark_begin_eq]
    exact all_bind_nullfilter _ _ (begin_result_name st id pos data)
  · rw [mark_end_eq]
    rcases end_state_cases st idE posE with h | ⟨i2, e2, hf2, he2, hrest⟩
    · rw [h]
    · rw [hf] at hf2
      injection hf2 with hi
      subst hi
      rw [he] at he2
      injection he2 with he3
      subst he3
      have hqe : ((fun p : OpId × Mark => p.2.data.name != entry.2.data.name) entry) = false := by
        simp
      rcases hrest with h | ⟨bi, below, _, hbe, hname, h⟩
      · rw [h]
        exact filter_erase_entry st index entry he _ hqe
      · rw [h]
        have hqb : ((fun p : OpId × Mark => p.2.data.name != entry.2.data.name) below) = false := by
          simp [hname]
        have hqb' : ((fun p : OpId × Mark => p.2.data.name != entry.2.data.name)
            (below.1, { below.2 with start := posE })) = false := by
          simp [hname]
        rw [filter_set_of_not _ _ bi below _ hbe hqb hqb']
        exact filter_erase_entry st index entry he _ hqe
  · rw [mark_end_eq]
    exact all_bind_nullfilter _ _ (end_result_name st idE posE index entry hf he)
  · have h1 := end_absent st idE posE j hj
    rw [mark_end_eq, h1]
    rfl

/-- C9 witness: concretely, over a state holding an `italic` entry and a `bold`
entry, a `bold` begin and the `bold` end leave the `italic` entry untouched and
return only `bold` deltas. -/
theorem C9_name_isolation_witness :
    (((stItalic.mark_begin ⟨3, 0⟩ 2 boldFalse).2).state.filter
        (fun p => p.2.data.name != "bold") =
      stItalic.state.filter (fun p => p.2.data.name != "bold")) ∧
    (((stItalic.mark_end ⟨2, 0⟩ 6).2).state.filter
        (fun p => p.2.data.name != "bold") =
      stItalic.state.filter (fun p => p.2.data.name != "bold")) ∧
    ((stItalic.mark_end ⟨2, 0⟩ 6).1.all (fun m => m.data.name == "bold") = true) := by
  have h := C9_name_isolation stItalic ⟨3, 0⟩ 2 boldFalse ⟨2, 0⟩ 6 0
    (⟨1, 0⟩, Mark.new "bold" (ScalarValue.Boolean true) 0 0)
  refine ⟨h.1, (h.2.2.1 (by decide) (by decide)).1, (h.2.2.1 (by decide) (by decide)).2⟩

/-- C1 counterexample: two causally consistent delivery orders of the same set of
operations (a permutation pair, no end before its paired begin, both resolved
with the same canonical order inside `find`) drive the machine to different
final states, and for the four-operation pair to different emitted visible-mark
sets. -/
theorem C1_convergence_counterexample :
    causallyConsistent seqX = true ∧ causallyConsistent seqY = true ∧
    seqX.Perm seqY ∧
    runOps emptyMachine seqX ≠ runOps emptyMachine seqY ∧
    causallyConsistent seqX4 = true ∧ causallyConsistent seqY4 = true ∧
    seqX4.Perm seqY4 ∧
    (runEmit emptyMachine seqX4).2 ≠ (runEmit emptyMachine seqY4).2 := by
  refine ⟨by decide, by decide, by decide, by decide, by decide, by decide, by decide, by decide⟩

/-- C1 (amended): convergence holds when both replicas deliver the operations in
the canonical total order itself: two causally consistent sequences containing
the same set of operations, each sorted by the canonical order over operation
identifiers, are the same sequence, so both machines end in identical final
states and emit identical visible-mark sets. -/
theorem C1_convergence_amended (ops1 ops2 : List MarkOp) (st : MarkStateMachine)
    (hp : ops1.Perm ops2)
    (hs1 : List.Sorted (fun a b => lamportLT a.opId b.opId) ops1)
    (hs2 : List.Sorted (fun a b => lamportLT a.opId b.opId) ops2)
    (hc1 : causallyConsistent ops1 = true) (hc2 : causallyConsistent ops2 = true) :
    runOps st ops1 = runOps st ops2 ∧ runEmit st ops1 = runEmit st ops2 := by
  haveI : IsAntisymm MarkOp (fun a b => lamportLT a.opId b.opId) :=
    ⟨fun a b h1 h2 => (lamportLT_asymm h1 h2).elim⟩
  have heq : ops1 = ops2 := List.eq_of_perm_of_sorted hp hs1 hs2
  subst heq
  exact ⟨rfl, rfl⟩

/-- C1 witness: the amended convergence applied to the canonical-order delivery
of a begin/end pair. -/
theorem C1_convergence_amended_witness :
    runOps emptyMachine seqSorted = runOps emptyMachine seqSorted ∧
    runEmit emptyMachine seqSorted = runEmit emptyMachine seqSorted :=
  C1_convergence_amended seqSorted seqSorted emptyMachine (by decide) (by decide) (by decide)
    (by decide) (by decide)
